import Mathlib

/-!
Verification of the truncated-SVD image compression script.

The script loads an image, averages the trailing channel axis to obtain a
grayscale matrix `X`, computes `U, S, V = np.linalg.svd(X, full_matrices=False)`,
turns `S` into a diagonal matrix with `np.diag`, and loops over the ranks
`(5, 20, 100)` building rank-`r` approximations.

Matrices are embedded as Mathlib matrices over `ℝ`; the n-dimensional numpy
array fed to `np.mean(A, -1)` is embedded as a nested-list tree over `ℚ` so
that its shape-polymorphic behaviour is captured exactly.  The SVD routine is
a library call, so it is modelled by its contract (`IsSVD`); the reconstruction
inside the loop body is not present in the sources (only the loop header is),
so it is modelled from the spec formula `U[:, :r] · diag(S[:r]) · V[:r, :]`.
-/

open Matrix BigOperators

noncomputable section

/-- The ranks iterated by the loop `for r in (5, 20, 100):`. -/
def requestedRanks : List ℕ := [5, 20, 100]

/-- Modelled from the spec: the slice `U[:, :r]` of the left factor
(`numpy` slicing clamps `r` to the number of columns). -/
def sliceCols {m k : ℕ} (r : ℕ) (U : Matrix (Fin m) (Fin k) ℝ) :
    Matrix (Fin m) (Fin (min r k)) ℝ :=
  Matrix.of fun i p => U i (Fin.castLE (min_le_right r k) p)

/-- Modelled from the spec: the slice `V[:r, :]` of the right factor. -/
def sliceRows {k n : ℕ} (r : ℕ) (V : Matrix (Fin k) (Fin n) ℝ) :
    Matrix (Fin (min r k)) (Fin n) ℝ :=
  Matrix.of fun p j => V (Fin.castLE (min_le_right r k) p) j

/-- Modelled from the spec: the slice `S[:r]` of the singular values. -/
def sliceVec {k : ℕ} (r : ℕ) (S : Fin k → ℝ) : Fin (min r k) → ℝ :=
  fun p => S (Fin.castLE (min_le_right r k) p)

/-- Model of `np.diag` applied to a vector: the square matrix carrying the
vector on its diagonal and zero elsewhere (source line `S = np.diag(S)`). -/
def np_diag {k : ℕ} (S : Fin k → ℝ) : Matrix (Fin k) (Fin k) ℝ :=
  Matrix.of fun l p => if l = p then S l else 0

/-- Modelled from the spec: the rank-`r` approximation
`U[:, :r] · diag(S[:r]) · V[:r, :]` (the loop body that forms it is not part
of the sources, only the loop header is). -/
def reconstruct {m k n : ℕ} (r : ℕ) (U : Matrix (Fin m) (Fin k) ℝ)
    (S : Fin k → ℝ) (V : Matrix (Fin k) (Fin n) ℝ) : Matrix (Fin m) (Fin n) ℝ :=
  sliceCols r U * np_diag (sliceVec r S) * sliceRows r V

/-- Modelled from the spec: the loop builds the rank-`r` approximation for
each requested rank in order. -/
def approximations {m k n : ℕ} (U : Matrix (Fin m) (Fin k) ℝ)
    (S : Fin k → ℝ) (V : Matrix (Fin k) (Fin n) ℝ) :
    List (Matrix (Fin m) (Fin n) ℝ) :=
  requestedRanks.map fun r => reconstruct r U S V

/-- Squared Frobenius norm of a matrix. -/
def frobSq {a b : ℕ} (M : Matrix (Fin a) (Fin b) ℝ) : ℝ :=
  ∑ i, ∑ j, (M i j) ^ 2

/-- The contract of `np.linalg.svd(X, full_matrices=False)` together with the
descending order of the returned singular values: `X = U · diag S · V`, the
columns of `U` and the rows of `V` are orthonormal, and `S` is nonnegative and
non-increasing. -/
structure IsSVD {m n k : ℕ} (X : Matrix (Fin m) (Fin n) ℝ)
    (U : Matrix (Fin m) (Fin k) ℝ) (S : Fin k → ℝ)
    (V : Matrix (Fin k) (Fin n) ℝ) : Prop where
  factor : X = U * Matrix.diagonal S * V
  orthoU : Uᵀ * U = 1
  orthoV : V * Vᵀ = 1
  nonneg : ∀ l, 0 ≤ S l
  antitoneS : ∀ l p : Fin k, l ≤ p → S p ≤ S l

/-- Shapes of the factors returned by `np.linalg.svd(X, full_matrices=False)`
for an `m × n` input, with `k = min m n`. -/
structure SVDFactors (m n : ℕ) where
  U : Matrix (Fin m) (Fin (min m n)) ℝ
  S : Fin (min m n) → ℝ
  V : Matrix (Fin (min m n)) (Fin n) ℝ

/-- The shape of a typed matrix. -/
def mshape {a b : ℕ} (_ : Matrix (Fin a) (Fin b) ℝ) : ℕ × ℕ := (a, b)

/-- The length of a typed vector. -/
def vshape {a : ℕ} (_ : Fin a → ℝ) : ℕ := a

/-- Grayscale conversion of a `h × w × c` image, `X = np.mean(A, -1)`,
on the typed 3-dimensional representation. -/
def grayscaleM {h w c : ℕ} (A : Fin h → Fin w → Fin c → ℝ) :
    Matrix (Fin h) (Fin w) ℝ :=
  Matrix.of fun i j => (∑ ch, A i j ch) / c

/-- The whole pipeline: load the image (the only fallible step, `imread`),
convert to grayscale, run the SVD routine `svdFn`, and build the rank-`r`
approximations for the requested ranks. -/
def pipeline {h w c : ℕ}
    (svdFn : Matrix (Fin h) (Fin w) ℝ → SVDFactors h w)
    (file : Option (Fin h → Fin w → Fin c → ℝ)) :
    Except String (List (Matrix (Fin h) (Fin w) ℝ)) :=
  match file with
  | none => Except.error "could not read image file"
  | some A =>
      let X := grayscaleM A
      let F := svdFn X
      Except.ok (approximations F.U F.S F.V)

/-- A concrete constant `1 × 1` grayscale matrix, used to instantiate the
universally quantified theorems below. -/
def Xw : Matrix (Fin 1) (Fin 1) ℝ := Matrix.of fun _ _ => 2

/-- A concrete SVD of `Xw`: `U = [[1]]`, `S = [2]`, `V = [[1]]`. -/
def Fw : SVDFactors 1 1 :=
  ⟨Matrix.of fun _ _ => 1, fun _ => 2, Matrix.of fun _ _ => 1⟩

end

/-- A numpy n-dimensional array: a nested-list tree of rational scalars. -/
inductive NDArray : Type where
  | scalar : ℚ → NDArray
  | arr : List NDArray → NDArray

/-- Whether the array is a bare scalar (a 0-dimensional array). -/
def NDArray.isScalar : NDArray → Bool
  | .scalar _ => true
  | .arr _ => false

/-- The value of a scalar node (0 on a non-scalar, never reached below). -/
def NDArray.scalarVal : NDArray → ℚ
  | .scalar q => q
  | .arr _ => 0

/-- Model of `np.mean(·, -1)`: averages over the last (innermost) axis of the
array, whatever the number of dimensions is. -/
def npMeanLast : NDArray → NDArray
  | .scalar q => .scalar q
  | .arr l =>
      if l.all NDArray.isScalar then
        .scalar ((l.map NDArray.scalarVal).sum / l.length)
      else
        .arr (l.attach.map fun x => npMeanLast x.1)
decreasing_by
  have h := List.sizeOf_lt_of_mem x.2
  simp only [NDArray.arr.sizeOf_spec]
  omega

/-- The numpy shape of an array (taking lengths along the first branch, as in
a rectangular numpy array). -/
def NDArray.shape : NDArray → List ℕ
  | .scalar _ => []
  | .arr [] => [0]
  | .arr (x :: xs) => (xs.length + 1) :: x.shape

/-- Embed a list of scalars as a 1-dimensional array. -/
def mk1D (row : List ℚ) : NDArray := .arr (row.map .scalar)

/-- Embed a list of rows as a 2-dimensional array. -/
def mk2D (rows : List (List ℚ)) : NDArray := .arr (rows.map mk1D)

/-- Embed a list of (row of pixel) lists as a 3-dimensional array. -/
def mk3D (cube : List (List (List ℚ))) : NDArray := .arr (cube.map mk2D)

/-- A concrete `1 × 2 × 2` image (one row, two pixels, two channels). -/
def cubeW : List (List (List ℚ)) := [[[1, 3], [2, 6]]]

/-- A concrete `1 × 2` 2-dimensional (already grayscale) array. -/
def matW : List (List ℚ) := [[1, 3]]

theorem np_diag_eq_diagonal {k : ℕ} (S : Fin k → ℝ) :
    np_diag S = Matrix.diagonal S := rfl

theorem sum_castLE {a k : ℕ} (h : a ≤ k) (g : Fin k → ℝ) :
    ∑ p : Fin a, g (Fin.castLE h p) =
      ∑ l : Fin k, if (l : ℕ) < a then g l else 0 := by
  have hset : (Finset.univ : Finset (Fin a)).map (Fin.castLEEmb h) =
      Finset.univ.filter (fun l : Fin k => (l : ℕ) < a) := by
    ext l
    simp only [Finset.mem_map, Finset.mem_univ, true_and, Finset.mem_filter,
      Fin.castLEEmb_apply]
    constructor
    · rintro ⟨p, rfl⟩
      exact p.isLt
    · intro hl
      exact ⟨⟨(l : ℕ), hl⟩, by apply Fin.ext; simp [Fin.castLE]⟩
  calc ∑ p : Fin a, g (Fin.castLE h p)
      = ∑ l in Finset.univ.map (Fin.castLEEmb h), g l := by
        rw [Finset.sum_map]
        apply Finset.sum_congr rfl
        intro p _
        rfl
    _ = ∑ l in Finset.univ.filter (fun l : Fin k => (l : ℕ) < a), g l := by
        rw [hset]
    _ = ∑ l : Fin k, if (l : ℕ) < a then g l else 0 := Finset.sum_filter _ _

theorem reconstruct_apply {m k n : ℕ} (r : ℕ) (U : Matrix (Fin m) (Fin k) ℝ)
    (S : Fin k → ℝ) (V : Matrix (Fin k) (Fin n) ℝ) (i : Fin m) (j : Fin n) :
    reconstruct r U S V i j =
      ∑ l : Fin k, if (l : ℕ) < r then U i l * S l * V l j else 0 := by
  rw [reconstruct, np_diag_eq_diagonal, Matrix.mul_apply]
  simp_rw [Matrix.mul_diagonal]
  have hs : ∀ p : Fin (min r k),
      sliceCols r U i p * sliceVec r S p * sliceRows r V p j =
        (fun l : Fin k => U i l * S l * V l j)
          (Fin.castLE (min_le_right r k) p) := by
    intro p
    rfl
  rw [Finset.sum_congr rfl fun p _ => hs p,
    sum_castLE (min_le_right r k) (fun l : Fin k => U i l * S l * V l j)]
  apply Finset.sum_congr rfl
  intro l _
  have hlk : (l : ℕ) < k := l.isLt
  by_cases hl : (l : ℕ) < r
  · rw [if_pos (by omega), if_pos hl]
  · rw [if_neg (by omega), if_neg hl]

theorem factor_apply {m k n : ℕ} (U : Matrix (Fin m) (Fin k) ℝ)
    (S : Fin k → ℝ) (V : Matrix (Fin k) (Fin n) ℝ) (i : Fin m) (j : Fin n) :
    (U * Matrix.diagonal S * V) i j = ∑ l : Fin k, U i l * S l * V l j := by
  rw [Matrix.mul_apply]
  simp_rw [Matrix.mul_diagonal]

theorem frobSq_eq_trace {a b : ℕ} (M : Matrix (Fin a) (Fin b) ℝ) :
    frobSq M = Matrix.trace (Mᵀ * M) := by
  simp only [frobSq, Matrix.trace, Matrix.diag_apply, Matrix.mul_apply,
    Matrix.transpose_apply, sq]
  exact Finset.sum_comm

theorem sub_reconstruct {m k n : ℕ} (r : ℕ) (X : Matrix (Fin m) (Fin n) ℝ)
    (U : Matrix (Fin m) (Fin k) ℝ) (S : Fin k → ℝ)
    (V : Matrix (Fin k) (Fin n) ℝ) (hX : X = U * Matrix.diagonal S * V) :
    X - reconstruct r U S V =
      U * Matrix.diagonal (fun l : Fin k => if (l : ℕ) < r then 0 else S l) *
        V := by
  ext i j
  rw [Matrix.sub_apply, reconstruct_apply, hX, factor_apply, factor_apply,
    ← Finset.sum_sub_distrib]
  apply Finset.sum_congr rfl
  intro l _
  by_cases hl : (l : ℕ) < r
  · simp [hl]
  · simp [hl]

theorem frobSq_error {m k n : ℕ} (r : ℕ) (X : Matrix (Fin m) (Fin n) ℝ)
    (U : Matrix (Fin m) (Fin k) ℝ) (S : Fin k → ℝ)
    (V : Matrix (Fin k) (Fin n) ℝ) (hX : X = U * Matrix.diagonal S * V)
    (hU : Uᵀ * U = 1) (hV : V * Vᵀ = 1) :
    frobSq (X - reconstruct r U S V) =
      ∑ l : Fin k, if (l : ℕ) < r then 0 else S l ^ 2 := by
  set w : Fin k → ℝ := fun l : Fin k => if (l : ℕ) < r then 0 else S l with hw
  rw [sub_reconstruct r X U S V hX, frobSq_eq_trace]
  have ht : (U * Matrix.diagonal w * V)ᵀ = Vᵀ * (Matrix.diagonal w * Uᵀ) := by
    rw [Matrix.transpose_mul, Matrix.transpose_mul, Matrix.diagonal_transpose]
  rw [ht]
  simp only [Matrix.mul_assoc]
  rw [← Matrix.mul_assoc Uᵀ U (Matrix.diagonal w * V), hU, Matrix.one_mul,
    ← Matrix.mul_assoc (Matrix.diagonal w) (Matrix.diagonal w) V,
    Matrix.diagonal_mul_diagonal, Matrix.trace_mul_comm, Matrix.mul_assoc,
    hV, Matrix.mul_one, Matrix.trace_diagonal]
  apply Finset.sum_congr rfl
  intro l _
  by_cases hl : (l : ℕ) < r
  · simp [Pi.mul_apply, hw, hl]
  · simp [Pi.mul_apply, hw, hl, sq]

theorem svd_col_const {m n k : ℕ} (X : Matrix (Fin m) (Fin n) ℝ)
    (U : Matrix (Fin m) (Fin k) ℝ) (S : Fin k → ℝ)
    (V : Matrix (Fin k) (Fin n) ℝ) (c : ℝ)
    (hX : X = U * Matrix.diagonal S * V) (hV : V * Vᵀ = 1)
    (hc : ∀ i j, X i j = c) (l : Fin k) (i : Fin m) :
    U i l * S l = c * ∑ j, V l j := by
  have hXV : X * Vᵀ = U * Matrix.diagonal S := by
    rw [hX, Matrix.mul_assoc, hV, Matrix.mul_one]
  have h2 : (X * Vᵀ) i l = U i l * S l := by
    rw [hXV, Matrix.mul_diagonal]
  rw [← h2, Matrix.mul_apply]
  simp_rw [Matrix.transpose_apply]
  rw [Finset.sum_congr rfl fun j _ => by rw [hc i j]]
  exact (Finset.mul_sum _ _ _).symm

theorem isSVD_Fw : IsSVD Xw Fw.U Fw.S Fw.V := by
  constructor
  · ext i j
    rw [factor_apply]
    show (2 : ℝ) = ∑ _l : Fin 1, 1 * 2 * 1
    rw [Fin.sum_univ_one]
    norm_num
  · ext i j
    have hij : i = j := by omega
    subst hij
    rw [Matrix.one_apply_eq, Matrix.mul_apply]
    show (∑ _p : Fin 1, (1 : ℝ) * 1) = 1
    rw [Fin.sum_univ_one]
    norm_num
  · ext i j
    have hij : i = j := by omega
    subst hij
    rw [Matrix.one_apply_eq, Matrix.mul_apply]
    show (∑ _p : Fin 1, (1 : ℝ) * 1) = 1
    rw [Fin.sum_univ_one]
    norm_num
  · intro l
    show (0 : ℝ) ≤ 2
    norm_num
  · intro l p _
    show (2 : ℝ) ≤ 2
    exact le_refl 2

theorem npMeanLast_arr (l : List NDArray) :
    npMeanLast (.arr l) =
      if l.all NDArray.isScalar then
        .scalar ((l.map NDArray.scalarVal).sum / l.length)
      else
        .arr (l.map npMeanLast) := by
  rw [npMeanLast]
  congr 1
  rw [List.attach_map_coe]

theorem meanLast_mk1D (row : List ℚ) :
    npMeanLast (mk1D row) = .scalar (row.sum / row.length) := by
  rw [mk1D, npMeanLast_arr, if_pos (by simp [NDArray.isScalar])]
  rw [List.map_map, show NDArray.scalarVal ∘ NDArray.scalar = id from rfl,
    List.map_id, List.length_map]

theorem meanLast_mk2D (rows : List (List ℚ)) (hne : rows ≠ []) :
    npMeanLast (mk2D rows) =
      .arr (rows.map fun row => .scalar (row.sum / row.length)) := by
  rw [mk2D, npMeanLast_arr, if_neg ?_]
  · rw [List.map_map]
    exact congrArg _ (List.map_congr_left fun a _ => meanLast_mk1D a)
  · cases rows with
    | nil => exact absurd rfl hne
    | cons r rest => simp [mk1D, NDArray.isScalar]

theorem meanLast_mk3D (cube : List (List (List ℚ))) (h1 : cube ≠ [])
    (h2 : ∀ row ∈ cube, row ≠ []) :
    npMeanLast (mk3D cube) =
      mk2D (cube.map fun row => row.map fun px => px.sum / px.length) := by
  rw [mk3D, npMeanLast_arr, if_neg ?_]
  · rw [List.map_map, mk2D, List.map_map]
    refine congrArg _ (List.map_congr_left fun a ha => ?_)
    rw [Function.comp_apply, Function.comp_apply, meanLast_mk2D a (h2 a ha),
      mk1D, List.map_map]
    simp [Function.comp]
  · cases cube with
    | nil => exact absurd rfl h1
    | cons r rest => simp [mk2D, NDArray.isScalar]

/-- Claim C1: for every SVD factorization `(U, S, V)` of the grayscale matrix
and every requested rank `r` with `1 ≤ r ≤ k`, the rank-`r` approximation is
the matrix product `U[:, :r] · diag(S[:r]) · V[:r, :]` — equal entrywise to
the truncated sum over the first `r` singular triples — and the loop performs
this reconstruction for each requested rank. -/
theorem reconstruct_truncated_product {m n : ℕ} (F : SVDFactors m n)
    (X : Matrix (Fin m) (Fin n) ℝ) (r : ℕ) (hsvd : IsSVD X F.U F.S F.V)
    (h1 : 1 ≤ r) (hrk : r ≤ min m n) :
    reconstruct r F.U F.S F.V = Matrix.of (fun i j =>
      ∑ l : Fin (min m n),
        if (l : ℕ) < r then F.U i l * F.S l * F.V l j else 0) ∧
    approximations F.U F.S F.V =
      requestedRanks.map fun q => reconstruct q F.U F.S F.V := by
  refine ⟨?_, rfl⟩
  ext i j
  rw [reconstruct_apply]
  rfl

theorem reconstruct_truncated_product_witness :
    reconstruct 1 Fw.U Fw.S Fw.V = Matrix.of (fun i j =>
      ∑ l : Fin (min 1 1),
        if (l : ℕ) < 1 then Fw.U i l * Fw.S l * Fw.V l j else 0) ∧
    approximations Fw.U Fw.S Fw.V =
      requestedRanks.map fun q => reconstruct q Fw.U Fw.S Fw.V :=
  reconstruct_truncated_product Fw Xw 1 isSVD_Fw (by decide) (by decide)

/-- Claim C2: for every grayscale matrix `X` with `k = min m n`, the rank-`k`
reconstruction built from the computed SVD factors equals `X` exactly (hence
within floating-point tolerance), and the reconstruction error is zero at
`r = k`. -/
theorem full_rank_exact {m n : ℕ} (F : SVDFactors m n)
    (X : Matrix (Fin m) (Fin n) ℝ) (hsvd : IsSVD X F.U F.S F.V) :
    reconstruct (min m n) F.U F.S F.V = X ∧
    frobSq (X - reconstruct (min m n) F.U F.S F.V) = 0 := by
  have hmain : reconstruct (min m n) F.U F.S F.V = X := by
    ext i j
    rw [reconstruct_apply, hsvd.factor, factor_apply]
    apply Finset.sum_congr rfl
    intro l _
    rw [if_pos l.isLt]
  refine ⟨hmain, ?_⟩
  rw [hmain, sub_self]
  simp [frobSq]

theorem full_rank_exact_witness :
    reconstruct (min 1 1) Fw.U Fw.S Fw.V = Xw ∧
    frobSq (Xw - reconstruct (min 1 1) Fw.U Fw.S Fw.V) = 0 :=
  full_rank_exact Fw Xw isSVD_Fw

/-- Claim C3: for every grayscale matrix `X` and ranks `r1 ≤ r2` between `1`
and `k`, the Frobenius-norm reconstruction error at rank `r2` is at most the
error at rank `r1`: the error is monotonically non-increasing in the rank. -/
theorem error_monotone {m n : ℕ} (F : SVDFactors m n)
    (X : Matrix (Fin m) (Fin n) ℝ) (r1 r2 : ℕ)
    (hsvd : IsSVD X F.U F.S F.V) (h1 : 1 ≤ r1) (h12 : r1 ≤ r2)
    (h2k : r2 ≤ min m n) :
    Real.sqrt (frobSq (X - reconstruct r2 F.U F.S F.V)) ≤
      Real.sqrt (frobSq (X - reconstruct r1 F.U F.S F.V)) := by
  apply Real.sqrt_le_sqrt
  rw [frobSq_error r1 X F.U F.S F.V hsvd.factor hsvd.orthoU hsvd.orthoV,
    frobSq_error r2 X F.U F.S F.V hsvd.factor hsvd.orthoU hsvd.orthoV]
  apply Finset.sum_le_sum
  intro l _
  by_cases ha : (l : ℕ) < r2
  · rw [if_pos ha]
    by_cases hb : (l : ℕ) < r1
    · rw [if_pos hb]
    · rw [if_neg hb]
      exact sq_nonneg _
  · rw [if_neg ha, if_neg (by omega)]

theorem error_monotone_witness :
    Real.sqrt (frobSq (Xw - reconstruct 1 Fw.U Fw.S Fw.V)) ≤
      Real.sqrt (frobSq (Xw - reconstruct 1 Fw.U Fw.S Fw.V)) :=
  error_monotone Fw Xw 1 1 isSVD_Fw (by decide) (by decide) (by decide)

/-- Claim C4: for every loaded image array with a trailing channel dimension
(a nonempty `h × w × c` array), `np.mean(A, -1)` returns the matrix obtained
by averaging the channel values along that trailing dimension: a
2-dimensional intensity array of shape `(h, w)`, the channel axis removed. -/
theorem grayscale_channels (cube : List (List (List ℚ))) (h w c : ℕ)
    (hh : cube.length = h) (hw : ∀ row ∈ cube, row.length = w)
    (hc : ∀ row ∈ cube, ∀ px ∈ row, px.length = c)
    (hpos : 1 ≤ h) (wpos : 1 ≤ w) (cpos : 1 ≤ c) :
    npMeanLast (mk3D cube) =
      mk2D (cube.map fun row => row.map fun px => px.sum / px.length) ∧
    (npMeanLast (mk3D cube)).shape = [h, w] := by
  have hcne : cube ≠ [] := by
    intro e
    rw [e] at hh
    simp at hh
    omega
  have hrne : ∀ row ∈ cube, row ≠ [] := by
    intro row hr e
    have hl := hw row hr
    rw [e] at hl
    simp at hl
    omega
  have heq := meanLast_mk3D cube hcne hrne
  refine ⟨heq, ?_⟩
  rw [heq]
  cases cube with
  | nil => exact absurd rfl hcne
  | cons r0 crest =>
    have hr0 : r0.length = w := hw r0 (by simp)
    cases r0 with
    | nil =>
      simp at hr0
      omega
    | cons p0 prest =>
      simp only [List.map_cons, mk2D, mk1D, NDArray.shape, List.length_map,
        List.length_cons, List.cons.injEq, and_true] at hh hr0 ⊢
      omega

theorem grayscale_channels_witness :
    (npMeanLast (mk3D cubeW) =
      mk2D (cubeW.map fun row => row.map fun px => px.sum / px.length) ∧
    (npMeanLast (mk3D cubeW)).shape = [1, 2]) :=
  grayscale_channels cubeW 1 2 2 (by decide) (by decide) (by decide)
    (by decide) (by decide) (by decide)

/-- Claim C5: the SVD step produces factors of shapes `U : h × k`,
`S : k` singular values stored as a `k × k` diagonal matrix by `np.diag`, and
`V : k × w`, where `k = min h w`; the factorization also holds with the
diagonal-stored `S`. -/
theorem svd_factor_shapes {m n : ℕ} (F : SVDFactors m n)
    (X : Matrix (Fin m) (Fin n) ℝ) (hsvd : IsSVD X F.U F.S F.V) :
    mshape F.U = (m, min m n) ∧ vshape F.S = min m n ∧
    np_diag F.S = Matrix.diagonal F.S ∧
    mshape (np_diag F.S) = (min m n, min m n) ∧
    mshape F.V = (min m n, n) ∧
    X = F.U * np_diag F.S * F.V := by
  refine ⟨rfl, rfl, rfl, rfl, rfl, ?_⟩
  rw [np_diag_eq_diagonal]
  exact hsvd.factor

theorem svd_factor_shapes_witness :
    mshape Fw.U = (1, min 1 1) ∧ vshape Fw.S = min 1 1 ∧
    np_diag Fw.S = Matrix.diagonal Fw.S ∧
    mshape (np_diag Fw.S) = (min 1 1, min 1 1) ∧
    mshape Fw.V = (min 1 1, 1) ∧
    Xw = Fw.U * np_diag Fw.S * Fw.V :=
  svd_factor_shapes Fw Xw isSVD_Fw

/-- Claim C6: for every constant-valued image (all intensities equal to some
`c`), the rank-1 reconstruction from the computed SVD factors equals the
original grayscale matrix exactly. -/
theorem rank_one_exact_const {m n : ℕ} (F : SVDFactors m n)
    (X : Matrix (Fin m) (Fin n) ℝ) (c : ℝ) (hsvd : IsSVD X F.U F.S F.V)
    (hc : ∀ i j, X i j = c) :
    reconstruct 1 F.U F.S F.V = X := by
  have key : ∀ l : Fin (min m n), 1 ≤ (l : ℕ) → F.S l = 0 := by
    intro l hl
    by_contra hS
    have hk : 0 < min m n := l.pos
    set z : Fin (min m n) := ⟨0, hk⟩ with hz
    have hzl : z ≠ l := by
      intro e
      have := congrArg Fin.val e
      rw [hz] at this
      simp at this
      omega
    have hSl : 0 < F.S l := lt_of_le_of_ne (hsvd.nonneg l) (Ne.symm hS)
    have hSz : 0 < F.S z := by
      refine lt_of_lt_of_le hSl (hsvd.antitoneS z l ?_)
      rw [Fin.le_def, hz]
      simp
    have hUl : ∀ i, F.U i l = c * (∑ j, F.V l j) / F.S l := by
      intro i
      rw [eq_div_iff (ne_of_gt hSl)]
      exact svd_col_const X F.U F.S F.V c hsvd.factor hsvd.orthoV hc l i
    have hUz : ∀ i, F.U i z = c * (∑ j, F.V z j) / F.S z := by
      intro i
      rw [eq_div_iff (ne_of_gt hSz)]
      exact svd_col_const X F.U F.S F.V c hsvd.factor hsvd.orthoV hc z i
    set az : ℝ := c * (∑ j, F.V z j) / F.S z with haz
    set al : ℝ := c * (∑ j, F.V l j) / F.S l with hal
    have oUzz : (m : ℝ) * (az * az) = 1 := by
      have h := congrArg (fun M => M z z) hsvd.orthoU
      simp only [Matrix.mul_apply, Matrix.transpose_apply,
        Matrix.one_apply_eq] at h
      rw [Finset.sum_congr rfl fun i _ => by rw [hUz i]] at h
      rwa [Finset.sum_const, Finset.card_univ, Fintype.card_fin,
        nsmul_eq_mul] at h
    have oUll : (m : ℝ) * (al * al) = 1 := by
      have h := congrArg (fun M => M l l) hsvd.orthoU
      simp only [Matrix.mul_apply, Matrix.transpose_apply,
        Matrix.one_apply_eq] at h
      rw [Finset.sum_congr rfl fun i _ => by rw [hUl i]] at h
      rwa [Finset.sum_const, Finset.card_univ, Fintype.card_fin,
        nsmul_eq_mul] at h
    have oUzl : (m : ℝ) * (az * al) = 0 := by
      have h := congrArg (fun M => M z l) hsvd.orthoU
      simp only [Matrix.mul_apply, Matrix.transpose_apply,
        Matrix.one_apply_ne hzl] at h
      rw [Finset.sum_congr rfl fun i _ => by rw [hUz i, hUl i]] at h
      rwa [Finset.sum_const, Finset.card_univ, Fintype.card_fin,
        nsmul_eq_mul] at h
    have hcontr : ((m : ℝ) * (az * al)) ^ 2 =
        ((m : ℝ) * (az * az)) * ((m : ℝ) * (al * al)) := by ring
    rw [oUzl, oUzz, oUll] at hcontr
    norm_num at hcontr
  ext i j
  rw [reconstruct_apply, hsvd.factor, factor_apply]
  apply Finset.sum_congr rfl
  intro l _
  by_cases hl : (l : ℕ) < 1
  · rw [if_pos hl]
  · rw [if_neg hl, key l (by omega)]
    simp

theorem rank_one_exact_const_witness :
    reconstruct 1 Fw.U Fw.S Fw.V = Xw :=
  rank_one_exact_const Fw Xw 2 isSVD_Fw (fun _ _ => rfl)

/-- Claim C7: the rank-`r` reconstruction is deterministic — on equal SVD
factors and equal rank it produces identical output matrices. -/
theorem reconstruct_deterministic {m k n : ℕ} (r1 r2 : ℕ)
    (U1 U2 : Matrix (Fin m) (Fin k) ℝ) (S1 S2 : Fin k → ℝ)
    (V1 V2 : Matrix (Fin k) (Fin n) ℝ) (hU : U1 = U2) (hS : S1 = S2)
    (hV : V1 = V2) (hr : r1 = r2) :
    reconstruct r1 U1 S1 V1 = reconstruct r2 U2 S2 V2 := by
  rw [hU, hS, hV, hr]

theorem reconstruct_deterministic_witness :
    reconstruct 1 Fw.U Fw.S Fw.V = reconstruct 1 Fw.U Fw.S Fw.V :=
  reconstruct_deterministic 1 1 Fw.U Fw.U Fw.S Fw.S Fw.V Fw.V rfl rfl rfl rfl

/-- Claim C8: the only failure mode of the pipeline is a failed image load,
surfaced as a fatal error; after a successful load every remaining operation
succeeds and the pipeline returns the list of approximations. -/
theorem pipeline_error_iff_load_fails (h w c : ℕ)
    (svdFn : Matrix (Fin h) (Fin w) ℝ → SVDFactors h w) :
    (pipeline svdFn (none : Option (Fin h → Fin w → Fin c → ℝ)) =
      Except.error "could not read image file") ∧
    ∀ A : Fin h → Fin w → Fin c → ℝ,
      pipeline svdFn (some A) =
        Except.ok (approximations (svdFn (grayscaleM A)).U
          (svdFn (grayscaleM A)).S (svdFn (grayscaleM A)).V) :=
  ⟨rfl, fun _ => rfl⟩

/-- Claim C9: the loop iterates over exactly the ranks 5, 20 and 100, in that
order, building the corresponding reconstruction at each. -/
theorem loop_ranks {m k n : ℕ} (U : Matrix (Fin m) (Fin k) ℝ)
    (S : Fin k → ℝ) (V : Matrix (Fin k) (Fin n) ℝ) :
    requestedRanks = [5, 20, 100] ∧
    approximations U S V =
      [reconstruct 5 U S V, reconstruct 20 U S V, reconstruct 100 U S V] :=
  ⟨rfl, rfl⟩

/-- Claim C10: `np.mean(·, -1)` averages over the last axis whatever it is —
applied to an already 2-dimensional (grayscale) array it averages over the
width axis and returns a 1-dimensional array of length `h` of row means,
not an intensity matrix. -/
theorem grayscale_2d (mat : List (List ℚ)) (h w : ℕ)
    (hh : mat.length = h) (hw : ∀ row ∈ mat, row.length = w)
    (hpos : 1 ≤ h) (wpos : 1 ≤ w) :
    npMeanLast (mk2D mat) =
      NDArray.arr (mat.map fun row => NDArray.scalar (row.sum / row.length)) ∧
    (npMeanLast (mk2D mat)).shape = [h] := by
  have hmne : mat ≠ [] := by
    intro e
    rw [e] at hh
    simp at hh
    omega
  have heq := meanLast_mk2D mat hmne
  refine ⟨heq, ?_⟩
  rw [heq]
  cases mat with
  | nil => exact absurd rfl hmne
  | cons r0 rest =>
    simp only [List.map_cons, NDArray.shape, List.length_map,
      List.length_cons, List.cons.injEq, and_true] at hh ⊢
    omega

theorem grayscale_2d_witness :
    (npMeanLast (mk2D matW) =
      NDArray.arr (matW.map fun row => NDArray.scalar (row.sum / row.length)) ∧
    (npMeanLast (mk2D matW)).shape = [1]) :=
  grayscale_2d matW 1 2 (by decide) (by decide) (by decide) (by decide)
